import Mathlib

/-!
Verification of the libmega 16x16 JPEG-like image codec core (imutils.cpp).

Shallow embedding conventions:
- Machine integers (int16_t, int32_t, size_t) are modelled as `ℤ` or `ℕ`.
  Stores into `int16_t` locations are modelled with `wrap16` (reduction into
  [-32768, 32767]); `int32_t` intermediates never overflow in the code paths
  treated here and are modelled as plain `ℤ`.
- C arithmetic right shift on signed values (`>> n`) is `asr` (floor division
  by 2^n); C integer division (truncation toward zero) is `cdiv`.
- Fixed-size arrays are modelled as total functions `ℕ → ℤ`; the loops of the
  C code write each output cell exactly once, so each output array is given by
  the expression the loop stores at that cell (gather form).  Buffers holding
  uint8 / int16 data are unconstrained functions; theorems carry the range
  hypotheses that the C types guarantee.
- The float tables of the AA&N kernel are modelled with exact rational
  arithmetic (`ℚ`).  The facts proved and refuted about them hold by margins
  that are many orders of magnitude larger than single-precision rounding.
-/

/-- C arithmetic right shift by `n` of a signed value: floor division by
`2 ^ n` (sign extending), as performed on the int16/int32 values in the
source. `Int./` is Euclidean division, which coincides with floor division for
a positive divisor. -/
def asr (x : ℤ) (n : ℕ) : ℤ := x / 2 ^ n

/-- Reduction of an integer into the int16_t range [-32768, 32767], modelling
a store into an `int16_t` location (two's complement wrap-around). -/
def wrap16 (x : ℤ) : ℤ := (x + 32768) % 65536 - 32768

/-- C integer division: truncation toward zero. -/
def cdiv (a b : ℤ) : ℤ := Int.tdiv a b

/-- `clamp` from imutils.cpp: clamp a value to the byte range [0, 255]. -/
def clamp (v : ℤ) : ℤ := if v < 0 then 0 else if v > 255 then 255 else v

/-- `qmin` from imutils.cpp. -/
def qmin (a b : ℤ) : ℤ := if a < b then a else b

/-- `qmax` from imutils.cpp. -/
def qmax (a b : ℤ) : ℤ := if a > b then a else b

theorem asr_eval (x : ℤ) (n : ℕ) : asr x n = x / 2 ^ n := rfl

theorem wrap16_eval (x : ℤ) : wrap16 x = (x + 32768) % 65536 - 32768 := rfl

/-- A value already in the int16_t range is unchanged by the wrap. -/
theorem wrap16_id {x : ℤ} (h1 : -32768 ≤ x) (h2 : x ≤ 32767) : wrap16 x = x := by
  unfold wrap16; omega

/-! ## Color-space converter (rgba_to_ycocga / ycocga_to_rgba)

The source processes 256 pixels independently; pixel `i` reads RGBA bytes
`rgba[4i .. 4i+3]`, writes YCoCg entries `ycocg[3i .. 3i+2]` and alpha byte
`alpha[i]`.  The per-pixel lifting steps are named below exactly as the
int16_t locals `Co`, `t`, `Cg`, `Y` of `rgba_to_ycocga`, and `t`, `g`, `b`,
`r` of `ycocga_to_rgba`. -/

/-- Local `Co = r - b` of rgba_to_ycocga (int16_t store). -/
def pixel_Co (r b : ℤ) : ℤ := wrap16 (r - b)

/-- Local `t = b + (Co >> 1)` of rgba_to_ycocga (int16_t store). -/
def pixel_t (r b : ℤ) : ℤ := wrap16 (b + asr (pixel_Co r b) 1)

/-- Local `Cg = g - t` of rgba_to_ycocga (int16_t store). -/
def pixel_Cg (r g b : ℤ) : ℤ := wrap16 (g - pixel_t r b)

/-- Local `Y = t + (Cg >> 1)` of rgba_to_ycocga (int16_t store). -/
def pixel_Y (r g b : ℤ) : ℤ := wrap16 (pixel_t r b + asr (pixel_Cg r g b) 1)

/-- `rgba_to_ycocga` from imutils.cpp, YCoCg output plane: entry `3*i + 0` is
`Y`, `3*i + 1` is `Co`, `3*i + 2` is `Cg` of pixel `i`, whose RGB bytes are
`rgba (4*i)`, `rgba (4*i+1)`, `rgba (4*i+2)`. -/
def rgba_to_ycocga (rgba : ℕ → ℤ) : ℕ → ℤ := fun k =>
  let i := k / 3
  let r := rgba (4 * i)
  let g := rgba (4 * i + 1)
  let b := rgba (4 * i + 2)
  match k % 3 with
  | 0 => pixel_Y r g b
  | 1 => pixel_Co r b
  | _ => pixel_Cg r g b

/-- `rgba_to_ycocga` from imutils.cpp, alpha output plane: `alpha[i]` is the
byte `rgba[4*i + 3]`, copied verbatim. -/
def rgba_to_ycocga_alpha (rgba : ℕ → ℤ) : ℕ → ℤ := fun i => rgba (4 * i + 3)

/-- Local `t = y - (cg >> 1)` of ycocga_to_rgba (int16_t store). -/
def inv_t (y cg : ℤ) : ℤ := wrap16 (y - asr cg 1)

/-- Local `g = cg + t` of ycocga_to_rgba (int16_t store). -/
def inv_g (y cg : ℤ) : ℤ := wrap16 (cg + inv_t y cg)

/-- Local `b = t - (co >> 1)` of ycocga_to_rgba (int16_t store). -/
def inv_b (y co cg : ℤ) : ℤ := wrap16 (inv_t y cg - asr co 1)

/-- Local `r = b + co` of ycocga_to_rgba (int16_t store). -/
def inv_r (y co cg : ℤ) : ℤ := wrap16 (inv_b y co cg + co)

/-- The value `ycocga_to_rgba` computes for output byte `m` BEFORE the final
clamp: pixel `i = m / 4` reads `y = ycocg (3i)`, `co = ycocg (3i+1)`,
`cg = ycocg (3i+2)`; components r, g, b in channel order, and the alpha byte
for channel 3. -/
def ycocga_to_rgba_raw (ycocg alpha : ℕ → ℤ) : ℕ → ℤ := fun m =>
  let i := m / 4
  let y := ycocg (3 * i)
  let co := ycocg (3 * i + 1)
  let cg := ycocg (3 * i + 2)
  match m % 4 with
  | 0 => inv_r y co cg
  | 1 => inv_g y cg
  | 2 => inv_b y co cg
  | _ => alpha i

/-- `ycocga_to_rgba` from imutils.cpp: the r, g, b components are clamped to
[0, 255] as they are stored; the alpha byte is copied verbatim. -/
def ycocga_to_rgba (ycocg alpha : ℕ → ℤ) : ℕ → ℤ := fun m =>
  if m % 4 = 3 then ycocga_to_rgba_raw ycocg alpha m
  else clamp (ycocga_to_rgba_raw ycocg alpha m)

/-- Byte-range predicate for the RGB components of an RGBA8 buffer: the three
color bytes of every one of the 256 pixels lie in [0, 255] (the alpha byte is
unconstrained). -/
def RgbBytes (rgba : ℕ → ℤ) : Prop :=
  ∀ i < 256, (0 ≤ rgba (4 * i) ∧ rgba (4 * i) ≤ 255) ∧
    (0 ≤ rgba (4 * i + 1) ∧ rgba (4 * i + 1) ≤ 255) ∧
    (0 ≤ rgba (4 * i + 2) ∧ rgba (4 * i + 2) ≤ 255)

theorem pixel_Co_eq {r b : ℤ} (hr1 : 0 ≤ r) (hr2 : r ≤ 255) (hb1 : 0 ≤ b)
    (hb2 : b ≤ 255) : pixel_Co r b = r - b := by
  unfold pixel_Co; exact wrap16_id (by omega) (by omega)

theorem pixel_t_eq {r b : ℤ} (hr1 : 0 ≤ r) (hr2 : r ≤ 255) (hb1 : 0 ≤ b)
    (hb2 : b ≤ 255) : pixel_t r b = b + (r - b) / 2 := by
  unfold pixel_t asr
  rw [pixel_Co_eq hr1 hr2 hb1 hb2]
  norm_num
  exact wrap16_id (by omega) (by omega)

theorem pixel_t_range {r b : ℤ} (hr1 : 0 ≤ r) (hr2 : r ≤ 255) (hb1 : 0 ≤ b)
    (hb2 : b ≤ 255) : 0 ≤ pixel_t r b ∧ pixel_t r b ≤ 255 := by
  rw [pixel_t_eq hr1 hr2 hb1 hb2]; omega

theorem pixel_Cg_eq {r g b : ℤ} (hr1 : 0 ≤ r) (hr2 : r ≤ 255) (hg1 : 0 ≤ g)
    (hg2 : g ≤ 255) (hb1 : 0 ≤ b) (hb2 : b ≤ 255) :
    pixel_Cg r g b = g - pixel_t r b := by
  have ht := pixel_t_range hr1 hr2 hb1 hb2
  unfold pixel_Cg
  exact wrap16_id (by omega) (by omega)

theorem pixel_Cg_range {r g b : ℤ} (hr1 : 0 ≤ r) (hr2 : r ≤ 255) (hg1 : 0 ≤ g)
    (hg2 : g ≤ 255) (hb1 : 0 ≤ b) (hb2 : b ≤ 255) :
    -255 ≤ pixel_Cg r g b ∧ pixel_Cg r g b ≤ 255 := by
  have ht := pixel_t_range hr1 hr2 hb1 hb2
  rw [pixel_Cg_eq hr1 hr2 hg1 hg2 hb1 hb2]; omega

theorem pixel_Y_eq {r g b : ℤ} (hr1 : 0 ≤ r) (hr2 : r ≤ 255) (hg1 : 0 ≤ g)
    (hg2 : g ≤ 255) (hb1 : 0 ≤ b) (hb2 : b ≤ 255) :
    pixel_Y r g b = pixel_t r b + pixel_Cg r g b / 2 := by
  have ht := pixel_t_range hr1 hr2 hb1 hb2
  have hcg := pixel_Cg_range hr1 hr2 hg1 hg2 hb1 hb2
  have hcg2 := pixel_Cg_eq hr1 hr2 hg1 hg2 hb1 hb2
  unfold pixel_Y asr
  norm_num
  exact wrap16_id (by omega) (by omega)

theorem pixel_Y_range {r g b : ℤ} (hr1 : 0 ≤ r) (hr2 : r ≤ 255) (hg1 : 0 ≤ g)
    (hg2 : g ≤ 255) (hb1 : 0 ≤ b) (hb2 : b ≤ 255) :
    0 ≤ pixel_Y r g b ∧ pixel_Y r g b ≤ 255 := by
  have ht := pixel_t_range hr1 hr2 hb1 hb2
  have hcg := pixel_Cg_range hr1 hr2 hg1 hg2 hb1 hb2
  have hcg2 := pixel_Cg_eq hr1 hr2 hg1 hg2 hb1 hb2
  have ht2 := pixel_t_eq hr1 hr2 hb1 hb2
  rw [pixel_Y_eq hr1 hr2 hg1 hg2 hb1 hb2]
  omega

/-- Per-pixel exact inversion of the YCoCg-R lifting, together with the fact
that the reconstructed r, g, b values are already in [0, 255] (so the clamp in
ycocga_to_rgba is the identity on them). -/
theorem pixel_roundtrip {r g b : ℤ} (hr1 : 0 ≤ r) (hr2 : r ≤ 255)
    (hg1 : 0 ≤ g) (hg2 : g ≤ 255) (hb1 : 0 ≤ b) (hb2 : b ≤ 255) :
    inv_r (pixel_Y r g b) (pixel_Co r b) (pixel_Cg r g b) = r ∧
    inv_g (pixel_Y r g b) (pixel_Cg r g b) = g ∧
    inv_b (pixel_Y r g b) (pixel_Co r b) (pixel_Cg r g b) = b := by
  have hco := pixel_Co_eq hr1 hr2 hb1 hb2
  have ht2 := pixel_t_eq hr1 hr2 hb1 hb2
  have ht := pixel_t_range hr1 hr2 hb1 hb2
  have hcg2 := pixel_Cg_eq hr1 hr2 hg1 hg2 hb1 hb2
  have hcg := pixel_Cg_range hr1 hr2 hg1 hg2 hb1 hb2
  have hy2 := pixel_Y_eq hr1 hr2 hg1 hg2 hb1 hb2
  have hy := pixel_Y_range hr1 hr2 hg1 hg2 hb1 hb2
  have hit : inv_t (pixel_Y r g b) (pixel_Cg r g b) = pixel_t r b := by
    unfold inv_t asr
    norm_num
    rw [wrap16_id (by omega) (by omega)]
    omega
  have hig : inv_g (pixel_Y r g b) (pixel_Cg r g b) = g := by
    unfold inv_g
    rw [hit]
    rw [wrap16_id (by omega) (by omega)]
    omega
  have hib : inv_b (pixel_Y r g b) (pixel_Co r b) (pixel_Cg r g b) = b := by
    unfold inv_b asr
    rw [hit]
    norm_num
    rw [wrap16_id (by omega) (by omega)]
    omega
  have hir : inv_r (pixel_Y r g b) (pixel_Co r b) (pixel_Cg r g b) = r := by
    unfold inv_r
    rw [hib]
    rw [wrap16_id (by omega) (by omega)]
    omega
  exact ⟨hir, hig, hib⟩

theorem clamp_id {v : ℤ} (h1 : 0 ≤ v) (h2 : v ≤ 255) : clamp v = v := by
  unfold clamp; split_ifs <;> omega

theorem rgba_to_ycocga_at_y (rgba : ℕ → ℤ) (i : ℕ) :
    rgba_to_ycocga rgba (3 * i) =
      pixel_Y (rgba (4 * i)) (rgba (4 * i + 1)) (rgba (4 * i + 2)) := by
  unfold rgba_to_ycocga
  have h1 : 3 * i / 3 = i := by omega
  have h2 : 3 * i % 3 = 0 := by omega
  simp only [h1, h2]

theorem rgba_to_ycocga_at_co (rgba : ℕ → ℤ) (i : ℕ) :
    rgba_to_ycocga rgba (3 * i + 1) =
      pixel_Co (rgba (4 * i)) (rgba (4 * i + 2)) := by
  unfold rgba_to_ycocga
  have h1 : (3 * i + 1) / 3 = i := by omega
  have h2 : (3 * i + 1) % 3 = 1 := by omega
  simp only [h1, h2]

theorem rgba_to_ycocga_at_cg (rgba : ℕ → ℤ) (i : ℕ) :
    rgba_to_ycocga rgba (3 * i + 2) =
      pixel_Cg (rgba (4 * i)) (rgba (4 * i + 1)) (rgba (4 * i + 2)) := by
  unfold rgba_to_ycocga
  have h1 : (3 * i + 2) / 3 = i := by omega
  have h2 : (3 * i + 2) % 3 = 2 := by omega
  simp only [h1, h2]

theorem raw_at0 (ycocg alpha : ℕ → ℤ) (i : ℕ) :
    ycocga_to_rgba_raw ycocg alpha (4 * i) =
      inv_r (ycocg (3 * i)) (ycocg (3 * i + 1)) (ycocg (3 * i + 2)) := by
  unfold ycocga_to_rgba_raw
  have h1 : 4 * i / 4 = i := by omega
  have h2 : 4 * i % 4 = 0 := by omega
  simp only [h1, h2]

theorem raw_at1 (ycocg alpha : ℕ → ℤ) (i : ℕ) :
    ycocga_to_rgba_raw ycocg alpha (4 * i + 1) =
      inv_g (ycocg (3 * i)) (ycocg (3 * i + 2)) := by
  unfold ycocga_to_rgba_raw
  have h1 : (4 * i + 1) / 4 = i := by omega
  have h2 : (4 * i + 1) % 4 = 1 := by omega
  simp only [h1, h2]

theorem raw_at2 (ycocg alpha : ℕ → ℤ) (i : ℕ) :
    ycocga_to_rgba_raw ycocg alpha (4 * i + 2) =
      inv_b (ycocg (3 * i)) (ycocg (3 * i + 1)) (ycocg (3 * i + 2)) := by
  unfold ycocga_to_rgba_raw
  have h1 : (4 * i + 2) / 4 = i := by omega
  have h2 : (4 * i + 2) % 4 = 2 := by omega
  simp only [h1, h2]

theorem raw_at3 (ycocg alpha : ℕ → ℤ) (i : ℕ) :
    ycocga_to_rgba_raw ycocg alpha (4 * i + 3) = alpha i := by
  unfold ycocga_to_rgba_raw
  have h1 : (4 * i + 3) / 4 = i := by omega
  have h2 : (4 * i + 3) % 4 = 3 := by omega
  simp only [h1, h2]

/-- C1 -- For every 16x16 block of 256 RGBA8 pixels (R, G, B bytes in
[0, 255], any alpha), converting with rgba_to_ycocga and back with
ycocga_to_rgba reproduces the input buffer bit-for-bit, and no clamping of
R, G or B triggers during the inverse conversion (the pre-clamp values are
already in [0, 255]). -/
theorem color_roundtrip_exact (rgba : ℕ → ℤ) (h : RgbBytes rgba) :
    (∀ n < 1024,
      ycocga_to_rgba (rgba_to_ycocga rgba) (rgba_to_ycocga_alpha rgba) n =
        rgba n) ∧
    (∀ n < 1024, n % 4 ≠ 3 →
      0 ≤ ycocga_to_rgba_raw (rgba_to_ycocga rgba) (rgba_to_ycocga_alpha rgba) n ∧
      ycocga_to_rgba_raw (rgba_to_ycocga rgba) (rgba_to_ycocga_alpha rgba) n ≤ 255) := by
  have key : ∀ n < 1024,
      (ycocga_to_rgba_raw (rgba_to_ycocga rgba) (rgba_to_ycocga_alpha rgba) n =
        rgba n) ∧
      (n % 4 ≠ 3 →
        0 ≤ rgba n ∧ rgba n ≤ 255) := by
    intro n hn
    obtain ⟨i, c, hc, rfl⟩ : ∃ i c, c < 4 ∧ n = 4 * i + c :=
      ⟨n / 4, n % 4, by omega, by omega⟩
    have hi : i < 256 := by omega
    obtain ⟨⟨hr1, hr2⟩, ⟨hg1, hg2⟩, ⟨hb1, hb2⟩⟩ := h i hi
    have hrt := pixel_roundtrip hr1 hr2 hg1 hg2 hb1 hb2
    have hmod : (4 * i + c) % 4 = c := by omega
    interval_cases c
    · simp only [Nat.add_zero] at hmod ⊢
      rw [raw_at0, rgba_to_ycocga_at_y, rgba_to_ycocga_at_co,
        rgba_to_ycocga_at_cg, hmod]
      exact ⟨hrt.1, fun _ => ⟨hr1, hr2⟩⟩
    · rw [raw_at1, rgba_to_ycocga_at_y, rgba_to_ycocga_at_cg, hmod]
      exact ⟨hrt.2.1, fun _ => ⟨hg1, hg2⟩⟩
    · rw [raw_at2, rgba_to_ycocga_at_y, rgba_to_ycocga_at_co,
        rgba_to_ycocga_at_cg, hmod]
      exact ⟨hrt.2.2, fun _ => ⟨hb1, hb2⟩⟩
    · rw [raw_at3, hmod]
      exact ⟨rfl, fun habs => absurd rfl habs⟩
  constructor
  · intro n hn
    have hk := key n hn
    unfold ycocga_to_rgba
    by_cases hm : n % 4 = 3
    · simp only [hm, if_pos]
      exact hk.1
    · simp only [hm, if_neg, if_false]
      rw [hk.1]
      exact clamp_id (hk.2 hm).1 (hk.2 hm).2
  · intro n hn hm
    have hk := key n hn
    rw [hk.1]
    exact hk.2 hm

/-- Witness for C1: on the constant buffer with every byte 7, pixel 0 of the
roundtrip reproduces the input byte. -/
theorem color_roundtrip_exact_witness :
    ycocga_to_rgba (rgba_to_ycocga (fun _ => 7))
      (rgba_to_ycocga_alpha (fun _ => 7)) 0 = 7 :=
  (color_roundtrip_exact (fun _ => 7)
    (fun i _ => by norm_num)).1 0 (by norm_num)

/-- C6 -- For every input pixel with R, G, B bytes in [0, 255], the forward
conversion rgba_to_ycocga produces Y in [0, 255] and Co, Cg in [-255, 255]. -/
theorem ycocg_component_ranges (rgba : ℕ → ℤ) (h : RgbBytes rgba) :
    ∀ i < 256,
      (0 ≤ rgba_to_ycocga rgba (3 * i) ∧ rgba_to_ycocga rgba (3 * i) ≤ 255) ∧
      (-255 ≤ rgba_to_ycocga rgba (3 * i + 1) ∧
        rgba_to_ycocga rgba (3 * i + 1) ≤ 255) ∧
      (-255 ≤ rgba_to_ycocga rgba (3 * i + 2) ∧
        rgba_to_ycocga rgba (3 * i + 2) ≤ 255) := by
  intro i hi
  obtain ⟨⟨hr1, hr2⟩, ⟨hg1, hg2⟩, ⟨hb1, hb2⟩⟩ := h i hi
  rw [rgba_to_ycocga_at_y, rgba_to_ycocga_at_co, rgba_to_ycocga_at_cg]
  refine ⟨pixel_Y_range hr1 hr2 hg1 hg2 hb1 hb2, ?_, pixel_Cg_range hr1 hr2 hg1 hg2 hb1 hb2⟩
  rw [pixel_Co_eq hr1 hr2 hb1 hb2]
  omega

/-- Witness for C6: the all-zero buffer satisfies the byte hypothesis and
pixel 0 has Y = 0 within the stated range. -/
theorem ycocg_component_ranges_witness :
    0 ≤ rgba_to_ycocga (fun _ => 0) 0 ∧ rgba_to_ycocga (fun _ => 0) 0 ≤ 255 := by
  have h := ycocg_component_ranges (fun _ => 0) (fun i _ => by norm_num) 0
    (by norm_num)
  simpa using h.1

/-! ## Block sampler (subblock / subsample / merge_blocks)

`subblock`, `subsample` and `merge_blocks` are loops that write each output
cell exactly once; they are embedded in gather form, giving each output index
the expression the loop stores there.  The int16_t instantiations (the ones
used by encode16x16i / decode16x16i) are embedded; `subsample_float` is the
float instantiation of the OLDER kernel (the predecessor revision of
imutils.cpp kept in the repository), which reads byte-valued YCoCg data, adds
an alternating rounding bias and recenters by 128.  Its outputs are small
integers, exactly representable in single precision, so exact integer
arithmetic models it bit-for-bit. -/

/-- `subblock` from imutils.cpp: output cell `i*8 + j` of quadrant `(x, y)`,
channel `channel`, is `YCoCg[(y*8 + i)*48 + (x*24 + channel) + j*3]`
(48 entries per 16-pixel row, 3 channels per pixel). -/
def subblock (YCoCg : ℕ → ℤ) (x y channel : ℕ) : ℕ → ℤ := fun k =>
  YCoCg ((y * 8 + k / 8) * 48 + (x * 24 + channel) + (k % 8) * 3)

/-- `subsample` from imutils.cpp (int16_t instantiation): output cell
`i*8 + j` is the 2x2 box sum of source rows `2i, 2i+1`, columns `2j, 2j+1`
of the given channel, shifted right by 2 and stored as int16_t.  There is no
rounding bias term. -/
def subsample (YCoCg : ℕ → ℤ) (channel : ℕ) : ℕ → ℤ := fun k =>
  let i := k / 8
  let j := k % 8
  wrap16 (asr (YCoCg ((2 * i) * 48 + (2 * j) * 3 + channel) +
               YCoCg ((2 * i) * 48 + (2 * j + 1) * 3 + channel) +
               YCoCg ((2 * i + 1) * 48 + (2 * j) * 3 + channel) +
               YCoCg ((2 * i + 1) * 48 + (2 * j + 1) * 3 + channel)) 2)

/-- `subsample` from the older float kernel revision: the locals `a = 0` and
`b = 2` provide the biases of the even and odd output columns of a row and
are swapped after every output row, so the bias of output cell `(i, j)` is 0
when `i + j` is even and 2 when it is odd; the shifted sum is recentered by
128 for the float DCT. -/
def subsample_float (YCoCg : ℕ → ℤ) (channel : ℕ) : ℕ → ℤ := fun k =>
  let i := k / 8
  let j := k % 8
  let bias : ℤ := if (i + j) % 2 = 0 then 0 else 2
  asr (YCoCg ((2 * i) * 48 + (2 * j) * 3 + channel) +
       YCoCg ((2 * i) * 48 + (2 * j + 1) * 3 + channel) +
       YCoCg ((2 * i + 1) * 48 + (2 * j) * 3 + channel) +
       YCoCg ((2 * i + 1) * 48 + (2 * j + 1) * 3 + channel) + bias) 2 - 128

/-- `merge_blocks` from imutils.cpp: the four source pointers cover the four
8x8 blocks `src[0..63]`, `src[64..127]`, `src[128..191]`, `src[192..255]` and
the four destination pointers cover the TL, TR, BL, BR quadrants of the
16x16 output. -/
def merge_blocks (src : ℕ → ℤ) : ℕ → ℤ := fun idx =>
  let j := idx % 16
  if idx < 128 then
    let i := idx / 16
    if j < 8 then src (i * 8 + j) else src (64 + i * 8 + (j - 8))
  else
    let i := (idx - 128) / 16
    if j < 8 then src (128 + i * 8 + j) else src (192 + i * 8 + (j - 8))

/-- `scale_block` from imutils.cpp: each source sample becomes a 2x2 block of
the 16x16 output; output cell `(r, q)` is `src[(r/2)*8 + q/2]`. -/
def scale_block (src : ℕ → ℤ) : ℕ → ℤ := fun idx =>
  let i := idx / 16
  let j := idx % 16
  src ((i / 2) * 8 + j / 2)

/-- The four luma quadrants extracted by subblock in the order the encoder
issues the calls -- (0,0), (1,0), (0,1), (1,1) -- packed into one contiguous
256-entry array. -/
def subblock_pack (YCoCg : ℕ → ℤ) (channel : ℕ) : ℕ → ℤ := fun k =>
  if k < 64 then subblock YCoCg 0 0 channel k
  else if k < 128 then subblock YCoCg 1 0 channel (k - 64)
  else if k < 192 then subblock YCoCg 0 1 channel (k - 128)
  else subblock YCoCg 1 1 channel (k - 192)

/-- All 768 entries of a YCoCg buffer lie in the int16_t range. -/
def Int16Entries (Y : ℕ → ℤ) : Prop :=
  ∀ k < 768, -32768 ≤ Y k ∧ Y k ≤ 32767

/-- C10 -- Extracting the four 8x8 quadrants of channel `c` with subblock in
the order (0,0), (1,0), (0,1), (1,1) into one contiguous 256-entry array and
applying merge_blocks reconstructs the original 16x16 plane of channel `c`
exactly: merge_blocks is a left inverse of the encoder's quadrant split. -/
theorem merge_blocks_inverts_subblock (YCoCg : ℕ → ℤ) (c r q : ℕ)
    (hc : c < 3) (hr : r < 16) (hq : q < 16) :
    merge_blocks (subblock_pack YCoCg c) (r * 16 + q) =
      YCoCg (r * 48 + q * 3 + c) := by
  simp only [merge_blocks, subblock_pack, subblock]
  have e1 : (r * 16 + q) % 16 = q := by omega
  have e2 : (r * 16 + q) / 16 = r := by omega
  have e3 : (r * 16 + q - 128) / 16 = r - 8 := by omega
  simp only [e1, e2, e3]
  by_cases hr8 : r < 8 <;> by_cases hq8 : q < 8
  · rw [if_pos (show r * 16 + q < 128 by omega), if_pos hq8,
      if_pos (show r * 8 + q < 64 by omega)]
    exact congrArg YCoCg (by omega)
  · rw [if_pos (show r * 16 + q < 128 by omega), if_neg hq8,
      if_neg (show ¬ 64 + r * 8 + (q - 8) < 64 by omega),
      if_pos (show 64 + r * 8 + (q - 8) < 128 by omega)]
    exact congrArg YCoCg (by omega)
  · rw [if_neg (show ¬ r * 16 + q < 128 by omega), if_pos hq8,
      if_neg (show ¬ 128 + (r - 8) * 8 + q < 64 by omega),
      if_neg (show ¬ 128 + (r - 8) * 8 + q < 128 by omega),
      if_pos (show 128 + (r - 8) * 8 + q < 192 by omega)]
    exact congrArg YCoCg (by omega)
  · rw [if_neg (show ¬ r * 16 + q < 128 by omega), if_neg hq8,
      if_neg (show ¬ 192 + (r - 8) * 8 + (q - 8) < 64 by omega),
      if_neg (show ¬ 192 + (r - 8) * 8 + (q - 8) < 128 by omega),
      if_neg (show ¬ 192 + (r - 8) * 8 + (q - 8) < 192 by omega)]
    exact congrArg YCoCg (by omega)

/-- Witness for C10: at channel 1, cell (9, 12), the merged split reproduces
the plane entry. -/
theorem merge_blocks_inverts_subblock_witness :
    merge_blocks (subblock_pack (fun k => (k : ℤ)) 1) (9 * 16 + 12) =
      ((9 * 48 + 12 * 3 + 1 : ℕ) : ℤ) :=
  merge_blocks_inverts_subblock (fun k => (k : ℤ)) 1 9 12 (by norm_num)
    (by norm_num) (by norm_num)

/-- Counterexample for C2: the claim states that the chroma subsample output
is `(v00 + v01 + v10 + v11 + bias) >> 2` with bias alternating 0, 2, 0, 2
across the eight output columns of every output row, for every 768-entry
int16 YCoCg buffer and both chroma channels.  The int16 `subsample` of the
current kernel adds no bias at all: on the buffer that is 1 at indices 7 and
10 (channel-1 entries of row 0, columns 2 and 3) and 0 elsewhere, output cell
(0, 1) is (1+1+0+0) >> 2 = 0, while the claimed formula gives
(1+1+0+0+2) >> 2 = 1. -/
theorem subsample_bias_counterexample :
    ¬ (∀ (Y : ℕ → ℤ) (c : ℕ), (c = 1 ∨ c = 2) → Int16Entries Y →
        ∀ i < 8, ∀ j < 8,
          subsample Y c (i * 8 + j) =
            asr (Y ((2 * i) * 48 + (2 * j) * 3 + c) +
                 Y ((2 * i) * 48 + (2 * j + 1) * 3 + c) +
                 Y ((2 * i + 1) * 48 + (2 * j) * 3 + c) +
                 Y ((2 * i + 1) * 48 + (2 * j + 1) * 3 + c) +
                 (if j % 2 = 0 then 0 else 2)) 2) := by
  intro h
  have hrange : Int16Entries (fun k => if k = 7 then 1 else if k = 10 then 1 else 0) := by
    intro k _
    dsimp only
    split_ifs <;> norm_num
  have h01 := h (fun k => if k = 7 then 1 else if k = 10 then 1 else 0) 1
    (Or.inl rfl) hrange 0 (by norm_num) 1 (by norm_num)
  norm_num [subsample, asr, wrap16] at h01

/-- C2 amended -- the 2x2 box-filter structure of the two subsample kernels:
the int16 `subsample` used by the current integer pipeline computes
`(v00 + v01 + v10 + v11) >> 2` with NO bias, for every int16-valued YCoCg
buffer and both chroma channels; the float `subsample` of the older kernel
revision adds a bias of 0 when (row + column) of the output cell is even and
2 when it is odd (so a row pattern 0,2,... on even rows and 2,0,... on odd
rows), then recenters by 128. -/
theorem subsample_box_filter (Y : ℕ → ℤ) (c : ℕ) (hc : c = 1 ∨ c = 2)
    (hY : Int16Entries Y) :
    ∀ i < 8, ∀ j < 8,
      subsample Y c (i * 8 + j) =
        asr (Y ((2 * i) * 48 + (2 * j) * 3 + c) +
             Y ((2 * i) * 48 + (2 * j + 1) * 3 + c) +
             Y ((2 * i + 1) * 48 + (2 * j) * 3 + c) +
             Y ((2 * i + 1) * 48 + (2 * j + 1) * 3 + c)) 2 ∧
      subsample_float Y c (i * 8 + j) =
        asr (Y ((2 * i) * 48 + (2 * j) * 3 + c) +
             Y ((2 * i) * 48 + (2 * j + 1) * 3 + c) +
             Y ((2 * i + 1) * 48 + (2 * j) * 3 + c) +
             Y ((2 * i + 1) * 48 + (2 * j + 1) * 3 + c) +
             (if (i + j) % 2 = 0 then 0 else 2)) 2 - 128 := by
  intro i hi j hj
  have hdiv : (i * 8 + j) / 8 = i := by omega
  have hmod : (i * 8 + j) % 8 = j := by omega
  have hc2 : c ≤ 2 := by omega
  have b1 := hY ((2 * i) * 48 + (2 * j) * 3 + c) (by omega)
  have b2 := hY ((2 * i) * 48 + (2 * j + 1) * 3 + c) (by omega)
  have b3 := hY ((2 * i + 1) * 48 + (2 * j) * 3 + c) (by omega)
  have b4 := hY ((2 * i + 1) * 48 + (2 * j + 1) * 3 + c) (by omega)
  constructor
  · simp only [subsample, hdiv, hmod]
    apply wrap16_id <;> simp only [asr_eval] <;> norm_num <;> omega
  · simp only [subsample_float, hdiv, hmod]

/-- Witness for C2's amended theorem: on the constant buffer 4 at channel 1,
output cell (0, 0) of the int16 subsample is (4+4+4+4) >> 2 and of the float
subsample is (4+4+4+4+0) >> 2 - 128. -/
theorem subsample_box_filter_witness :
    subsample (fun _ => 4) 1 (0 * 8 + 0) = asr (4 + 4 + 4 + 4) 2 ∧
    subsample_float (fun _ => 4) 1 (0 * 8 + 0) =
      asr (4 + 4 + 4 + 4 + (if (0 + 0) % 2 = 0 then 0 else (2 : ℤ))) 2 - 128 := by
  have h := subsample_box_filter (fun _ => 4) 1 (Or.inl rfl)
    (fun k _ => by norm_num) 0 (by norm_num) 0 (by norm_num)
  exact h

/-! ## Quantization-table engine -/

/-- `JPEGLumaQuant` from imutils.cpp: the base luma quantization table. -/
def JPEGLumaQuant : ℕ → ℤ := fun i =>
  ([16, 11, 12, 14, 12, 10, 16, 14,
    13, 14, 18, 17, 16, 19, 24, 40,
    26, 24, 22, 22, 24, 49, 35, 37,
    29, 40, 58, 51, 61, 60, 57, 51,
    56, 55, 64, 72, 92, 78, 64, 68,
    87, 69, 55, 56, 80, 109, 81, 87,
    95, 98, 103, 104, 103, 62, 77, 113,
    121, 112, 100, 120, 92, 101, 103, 99] : List ℤ).getD i 0

/-- `JPEGChromaQuant` from imutils.cpp: the base chroma quantization table. -/
def JPEGChromaQuant : ℕ → ℤ := fun i =>
  ([17, 18, 18, 24, 21, 24, 47, 26,
    26, 47, 99, 66, 56, 66, 99, 99,
    99, 99, 99, 99, 99, 99, 99, 99,
    99, 99, 99, 99, 99, 99, 99, 99,
    99, 99, 99, 99, 99, 99, 99, 99,
    99, 99, 99, 99, 99, 99, 99, 99,
    99, 99, 99, 99, 99, 99, 99, 99,
    99, 99, 99, 99, 99, 99, 99, 99] : List ℤ).getD i 0

/-- `quantization_table` from imutils.cpp: clamp the quality to [1, 100],
derive the int16_t scale factor `q`, then produce
`Q[i] = qmin(qmax((Qbase[i]*q + 50) / 100, 1), 255)` with C truncating
division and an int16_t store of the intermediate `c`. -/
def quantization_table (Qbase : ℕ → ℤ) (quality : ℤ) : ℕ → ℤ :=
  let quality1 := if quality < 1 then 1 else quality
  let quality2 := if quality1 > 100 then 100 else quality1
  let q := wrap16 (if quality2 < 50 then cdiv 5000 quality2 else 200 - quality2 * 2)
  fun i => qmin (qmax (wrap16 (cdiv (Qbase i * q + 50) 100)) 1) 255

/-- The quality scaling factor exactly as the specification words it: clamp
quality to [1, 100]; the factor is 5000/quality below 50 and 200 - 2*quality
otherwise. -/
def quality_scale (quality : ℤ) : ℤ :=
  let qc := qmin (qmax quality 1) 100
  if qc < 50 then cdiv 5000 qc else 200 - 2 * qc

theorem cdiv_eq_ediv {a b : ℤ} (ha : 0 ≤ a) (hb : 0 ≤ b) : cdiv a b = a / b :=
  Int.tdiv_eq_ediv ha hb

theorem cdiv_bounds {a b : ℤ} (ha : 0 ≤ a) (hb : 0 ≤ b) :
    0 ≤ cdiv a b ∧ cdiv a b ≤ a := by
  rw [cdiv_eq_ediv ha hb]
  exact ⟨Int.ediv_nonneg ha hb, Int.ediv_le_self b ha⟩

theorem quality_scale_bounds (quality : ℤ) :
    0 ≤ quality_scale quality ∧ quality_scale quality ≤ 5000 := by
  unfold quality_scale
  have hqc : 1 ≤ qmin (qmax quality 1) 100 ∧ qmin (qmax quality 1) 100 ≤ 100 := by
    unfold qmin qmax; split_ifs <;> omega
  set qc := qmin (qmax quality 1) 100
  by_cases h : qc < 50
  · rw [if_pos h]
    have := cdiv_bounds (a := 5000) (b := qc) (by norm_num) (by omega)
    omega
  · rw [if_neg h]
    omega

/-- Every output of quantization_table lies in [1, 255]: the final
qmin/qmax clamp enforces this for any base table and any quality. -/
theorem quantization_table_mem (Qbase : ℕ → ℤ) (quality : ℤ) (i : ℕ) :
    1 ≤ quantization_table Qbase quality i ∧
    quantization_table Qbase quality i ≤ 255 := by
  unfold quantization_table qmin qmax
  split_ifs <;> omega

/-- The int16_t scale factor computed inside quantization_table equals
`quality_scale` (the spec formula): the clamping chains agree and the factor
is within int16_t range, so the store does not wrap. -/
theorem quantization_table_q_eq (quality : ℤ) :
    wrap16 (if (if (if quality < 1 then 1 else quality) > 100 then 100
              else if quality < 1 then 1 else quality) < 50 then
              cdiv 5000 (if (if quality < 1 then 1 else quality) > 100 then 100
                else if quality < 1 then 1 else quality)
            else 200 - (if (if quality < 1 then 1 else quality) > 100 then 100
                else if quality < 1 then 1 else quality) * 2) =
      quality_scale quality := by
  have hclamp : (if (if quality < 1 then 1 else quality) > 100 then 100
      else if quality < 1 then 1 else quality) = qmin (qmax quality 1) 100 := by
    unfold qmin qmax; split_ifs <;> omega
  rw [hclamp]
  have heq : (if qmin (qmax quality 1) 100 < 50 then
      cdiv 5000 (qmin (qmax quality 1) 100)
      else 200 - qmin (qmax quality 1) 100 * 2) = quality_scale quality := by
    show _ = if qmin (qmax quality 1) 100 < 50 then
      cdiv 5000 (qmin (qmax quality 1) 100)
      else 200 - 2 * qmin (qmax quality 1) 100
    split_ifs <;> ring
  rw [heq]
  have hs := quality_scale_bounds quality
  exact wrap16_id (by omega) (by omega)

/-- C5 -- For every integer quality (values outside [1,100] are first
clamped) and every 64-entry base table with entries in [1, 255] (the
documented range of base quantization tables), quantization_table produces
exactly `clamp((Qbase[i]*q + 50) / 100, 1, 255)` with
`q = quality_scale(quality)`; every output entry lies in [1, 255], and
quality 50 reproduces the base table exactly. -/
theorem quantization_table_spec (Qbase : ℕ → ℤ) (quality : ℤ)
    (hQ : ∀ i < 64, 1 ≤ Qbase i ∧ Qbase i ≤ 255) :
    (∀ i < 64,
      quantization_table Qbase quality i =
        qmin (qmax (cdiv (Qbase i * quality_scale quality + 50) 100) 1) 255 ∧
      1 ≤ quantization_table Qbase quality i ∧
      quantization_table Qbase quality i ≤ 255) ∧
    (∀ i < 64, quantization_table Qbase 50 i = Qbase i) := by
  have formula : ∀ q : ℤ, ∀ i < 64,
      quantization_table Qbase q i =
        qmin (qmax (cdiv (Qbase i * quality_scale q + 50) 100) 1) 255 := by
    intro q i hi
    obtain ⟨hb1, hb2⟩ := hQ i hi
    have hs := quality_scale_bounds q
    show qmin (qmax (wrap16 (cdiv (Qbase i * _ + 50) 100)) 1) 255 = _
    rw [quantization_table_q_eq q]
    have hnum1 : 0 ≤ Qbase i * quality_scale q :=
      mul_nonneg (by omega) (by omega)
    have hnum2 : Qbase i * quality_scale q ≤ 255 * 5000 :=
      mul_le_mul hb2 hs.2 hs.1 (by norm_num)
    have hc := cdiv_bounds (a := Qbase i * quality_scale q + 50) (b := 100)
      (by omega) (by norm_num)
    have hcu : cdiv (Qbase i * quality_scale q + 50) 100 ≤ 12750 := by
      rw [cdiv_eq_ediv (by omega) (by norm_num)]
      calc (Qbase i * quality_scale q + 50) / 100
          ≤ 1275050 / 100 := Int.ediv_le_ediv (by norm_num) (by omega)
        _ = 12750 := by norm_num
    rw [wrap16_id (by omega) (by omega)]
  refine ⟨fun i hi => ⟨formula quality i hi, quantization_table_mem Qbase quality i⟩, ?_⟩
  intro i hi
  obtain ⟨hb1, hb2⟩ := hQ i hi
  rw [formula 50 i hi]
  have hq50 : quality_scale 50 = 100 := by decide
  rw [hq50, cdiv_eq_ediv (by omega) (by norm_num)]
  have hdiv : (Qbase i * 100 + 50) / 100 = Qbase i := by omega
  rw [hdiv]
  unfold qmin qmax
  split_ifs <;> omega

/-- Witness for C5: the constant base table 16 at quality 50 is reproduced
exactly at index 0, and the output entry is in range. -/
theorem quantization_table_spec_witness :
    quantization_table (fun _ => 16) 50 0 = 16 :=
  (quantization_table_spec (fun _ => 16) 50
    (fun i _ => by norm_num)).2 0 (by norm_num)

/-! ## Scaled float quantization tables (AA&N kernel)

The float tables are modelled with exact rational arithmetic; the claims
settled against them concern which algebraic formula the code computes, and
the discrepancies exhibited are many orders of magnitude larger than any
single-precision rounding error. -/

/-- `AANScaleFactor_float` from imutils.cpp, as exact rationals of the float
literals in the source. -/
def AANScaleFactor : ℕ → ℚ := fun n =>
  match n with
  | 0 => 1
  | 1 => 1.387039845
  | 2 => 1.306562965
  | 3 => 1.175875602
  | 4 => 1
  | 5 => 0.785694958
  | 6 => 0.541196100
  | 7 => 0.275899379
  | _ => 0

/-- `csf_from_qtable` from imutils.cpp: `CSF[i] = Qtable[0] / Qtable[i]` in
floating point, modelled exactly. -/
def csf_from_qtable (Qtable : ℕ → ℤ) : ℕ → ℚ := fun i =>
  (Qtable 0 : ℚ) / (Qtable i : ℚ)

/-- `scaled_qtable_float` from imutils.cpp: the loop index is `i = r*8 + c`
so `r = i / 8`, `c = i % 8`; with `q = CSFtable[i]` and
`qaan = AAN[r] * AAN[c] * q` the outputs are `Qidct[i] = qaan / 8` (first
component) and `Qfdct[i] = 1 / (qaan * 8)` (second component). -/
def scaled_qtable_float (CSFtable : ℕ → ℚ) : (ℕ → ℚ) × (ℕ → ℚ) :=
  (fun i => AANScaleFactor (i / 8) * AANScaleFactor (i % 8) * CSFtable i / 8,
   fun i => 1 / (AANScaleFactor (i / 8) * AANScaleFactor (i % 8) * CSFtable i * 8))

/-- `quantization_table_scale` (float overload) from imutils.cpp: derive the
CSF table from the base quantization table, then build the scaled pair. -/
def quantization_table_scale (Qbase : ℕ → ℤ) : (ℕ → ℚ) × (ℕ → ℚ) :=
  scaled_qtable_float (csf_from_qtable Qbase)

theorem aan_pos : ∀ r < 8, 0 < AANScaleFactor r := by
  intro r hr
  interval_cases r <;> norm_num [AANScaleFactor]

/-- Counterexample for C3: the claim states that for every quality the float
tables satisfy `Qidct_f[i] = Qbase[i] * AAN_factor[i] / 8` where Qbase is the
per-quality scaled base table.  The code instead multiplies by the
contrast-sensitivity ratio `CSF[i] = Qbase[0] / Qbase[i]`.  At quality 50 on
the JPEG luma table (where the scaled table equals the base table),
index 1 has Qbase[1] = 11 but the code computes
`AAN[0] * AAN[1] * (16/11) / 8`, not `11 * AAN[0] * AAN[1] / 8`. -/
theorem scaled_qtable_counterexample :
    (quantization_table_scale (quantization_table JPEGLumaQuant 50)).1 1 ≠
      (quantization_table JPEGLumaQuant 50 1 : ℚ) *
        (AANScaleFactor (1 / 8) * AANScaleFactor (1 % 8)) / 8 := by
  have h0 : quantization_table JPEGLumaQuant 50 0 = 16 := by decide
  have h1 : quantization_table JPEGLumaQuant 50 1 = 11 := by decide
  unfold quantization_table_scale scaled_qtable_float csf_from_qtable
  simp only [h0, h1]
  norm_num [AANScaleFactor]

/-- C3 amended -- for every base table and quality, the float-kernel scaled
tables are the AA&N-scaled CONTRAST-SENSITIVITY values (not the scaled base
values): `Qidct_f[i] = CSF[i] * AAN[i/8] * AAN[i%8] / 8` and
`Qfdct_f[i] = 1 / (CSF[i] * AAN[i/8] * AAN[i%8] * 8)` in natural (row-major)
order, with `CSF[i] = Q[0] / Q[i]` over the per-quality scaled table Q; both
outputs are strictly positive. -/
theorem scaled_qtable_formula (Qbase : ℕ → ℤ) (quality : ℤ) :
    ∀ i < 64,
      (quantization_table_scale (quantization_table Qbase quality)).1 i =
        ((quantization_table Qbase quality 0 : ℚ) /
          (quantization_table Qbase quality i : ℚ)) *
          (AANScaleFactor (i / 8) * AANScaleFactor (i % 8)) / 8 ∧
      (quantization_table_scale (quantization_table Qbase quality)).2 i =
        1 / (((quantization_table Qbase quality 0 : ℚ) /
          (quantization_table Qbase quality i : ℚ)) *
          (AANScaleFactor (i / 8) * AANScaleFactor (i % 8)) * 8) ∧
      0 < (quantization_table_scale (quantization_table Qbase quality)).1 i ∧
      0 < (quantization_table_scale (quantization_table Qbase quality)).2 i := by
  intro i hi
  have hq0 := quantization_table_mem Qbase quality 0
  have hqi := quantization_table_mem Qbase quality i
  have ha1 := aan_pos (i / 8) (by omega)
  have ha2 := aan_pos (i % 8) (by omega)
  have hcsf : (0 : ℚ) < (quantization_table Qbase quality 0 : ℚ) /
      (quantization_table Qbase quality i : ℚ) := by
    apply div_pos
    · exact_mod_cast by omega
    · exact_mod_cast by omega
  unfold quantization_table_scale scaled_qtable_float csf_from_qtable
  refine ⟨by ring, by ring, ?_, ?_⟩
  · positivity
  · dsimp only
    positivity

/-- Witness for C3's amended theorem: instance at the JPEG luma table,
quality 50, index 1. -/
theorem scaled_qtable_formula_witness :
    (quantization_table_scale (quantization_table JPEGLumaQuant 50)).1 1 =
      ((quantization_table JPEGLumaQuant 50 0 : ℚ) /
        (quantization_table JPEGLumaQuant 50 1 : ℚ)) *
        (AANScaleFactor (1 / 8) * AANScaleFactor (1 % 8)) / 8 :=
  (scaled_qtable_formula JPEGLumaQuant 50 1 (by norm_num)).1

/-- Counterexample for C4: the claim states
`Qidct_f[i] * Qfdct_f[i] * 64 == CSF[i]` to within 1e-5.  The product times
64 is identically 1, while at quality 50 on the JPEG luma table
`CSF[1] = 16/11`, so the difference is 5/11, vastly exceeding 1e-5. -/
theorem aan_symmetry_counterexample :
    ¬ (|(quantization_table_scale (quantization_table JPEGLumaQuant 50)).1 1 *
        (quantization_table_scale (quantization_table JPEGLumaQuant 50)).2 1 * 64 -
        csf_from_qtable (quantization_table JPEGLumaQuant 50) 1| ≤ 1 / 100000) := by
  have h0 : quantization_table JPEGLumaQuant 50 0 = 16 := by decide
  have h1 : quantization_table JPEGLumaQuant 50 1 = 11 := by decide
  unfold quantization_table_scale scaled_qtable_float csf_from_qtable
  simp only [h0, h1]
  norm_num [AANScaleFactor]
  rw [abs_of_nonneg (by norm_num : (0 : ℚ) ≤ 5 / 11)]
  norm_num

/-- C4 amended -- for every base table and quality, the float-kernel scaled
tables satisfy `Qidct_f[i] * Qfdct_f[i] * 64 = 1` exactly (in exact
arithmetic; well within the stated 1e-5), independent of the CSF weights. -/
theorem aan_qtable_product (Qbase : ℕ → ℤ) (quality : ℤ) :
    ∀ i < 64,
      (quantization_table_scale (quantization_table Qbase quality)).1 i *
        (quantization_table_scale (quantization_table Qbase quality)).2 i * 64
        = 1 := by
  intro i hi
  have hq0 := quantization_table_mem Qbase quality 0
  have hqi := quantization_table_mem Qbase quality i
  have ha1 := aan_pos (i / 8) (by omega)
  have ha2 := aan_pos (i % 8) (by omega)
  have hcsf : (0 : ℚ) < (quantization_table Qbase quality 0 : ℚ) /
      (quantization_table Qbase quality i : ℚ) := by
    apply div_pos
    · exact_mod_cast by omega
    · exact_mod_cast by omega
  have hA1 : AANScaleFactor (i / 8) ≠ 0 := ne_of_gt ha1
  have hA2 : AANScaleFactor (i % 8) ≠ 0 := ne_of_gt ha2
  have hz0 : (quantization_table Qbase quality 0 : ℚ) ≠ 0 := by
    exact_mod_cast (by omega : quantization_table Qbase quality 0 ≠ 0)
  have hzi : (quantization_table Qbase quality i : ℚ) ≠ 0 := by
    exact_mod_cast (by omega : quantization_table Qbase quality i ≠ 0)
  unfold quantization_table_scale scaled_qtable_float csf_from_qtable
  dsimp only
  field_simp
  ring

/-- Witness for C4's amended theorem: instance at the JPEG luma table,
quality 50, index 1 (where the claimed CSF value is 16/11, not 1). -/
theorem aan_qtable_product_witness :
    (quantization_table_scale (quantization_table JPEGLumaQuant 50)).1 1 *
      (quantization_table_scale (quantization_table JPEGLumaQuant 50)).2 1 * 64
      = 1 :=
  aan_qtable_product JPEGLumaQuant 50 1 (by norm_num)

/-! ## Integer DCT kernels (Bink-2 style)

`fdct8x8iq_base` and `idct8x8id_base` run one identical 1-D butterfly pass
over the rows and then the columns (forward), or over the columns and then
the rows (inverse).  Intermediates are int32 (no overflow for the inputs
considered); each store back into the int16 array is wrapped.  The passes are
embedded as functions from the eight inputs to the eight outputs, with the
locals named exactly as in the source. -/

/-- One 1-D pass of `fdct8x8i_base` / `fdct8x8iq_base`: inputs i0..i7, output
slot `k` receives c0, d4, c2, d6, c1, d5, c3, d7 for k = 0..7 (the order the
source stores out[0..7]). -/
def fdctPass (i0 i1 i2 i3 i4 i5 i6 i7 : ℤ) : ℕ → ℤ := fun k =>
  let a0 := i0 + i7
  let a1 := i1 + i6
  let a2 := i2 + i5
  let a3 := i3 + i4
  let a4 := i0 - i7
  let a5 := i1 - i6
  let a6 := i2 - i5
  let a7 := i3 - i4
  let b0 := a0 + a3
  let b1 := a1 + a2
  let b2 := a0 - a3
  let b3 := a1 - a2
  let c0 := b0 + b1
  let c1 := b0 - b1
  let c2 := b2 + asr b2 2 + asr b3 1
  let c3 := asr b2 1 - b3 - asr b3 2
  let b4 := asr a7 2 + a4 + asr a4 2 - asr a4 4
  let b7 := asr a4 2 - a7 - asr a7 2 + asr a7 4
  let b5 := a5 + a6 - asr a6 2 - asr a6 4
  let b6 := a6 - a5 + asr a5 2 + asr a5 4
  let c4 := b4 + b5
  let c5 := b4 - b5
  let c6 := b6 + b7
  let c7 := b6 - b7
  let d4 := c4
  let d5 := c5 + c7
  let d6 := c5 - c7
  let d7 := c6
  match k with
  | 0 => c0
  | 1 => d4
  | 2 => c2
  | 3 => d6
  | 4 => c1
  | 5 => d5
  | 6 => c3
  | 7 => d7
  | _ => 0

/-- Row pass of the forward integer DCT: row `n / 8` of the input feeds the
butterfly; slot `n % 8` of the result is stored as int16. -/
def fdct8x8i_rows (src : ℕ → ℤ) : ℕ → ℤ := fun n =>
  wrap16 (fdctPass
    (src (8 * (n / 8) + 0)) (src (8 * (n / 8) + 1))
    (src (8 * (n / 8) + 2)) (src (8 * (n / 8) + 3))
    (src (8 * (n / 8) + 4)) (src (8 * (n / 8) + 5))
    (src (8 * (n / 8) + 6)) (src (8 * (n / 8) + 7)) (n % 8))

/-- Column pass of the forward integer DCT, reading the row-pass results:
column `n % 8` feeds the butterfly; slot `n / 8` is stored as int16. -/
def fdct8x8i_cols (mid : ℕ → ℤ) : ℕ → ℤ := fun n =>
  wrap16 (fdctPass
    (mid (8 * 0 + n % 8)) (mid (8 * 1 + n % 8))
    (mid (8 * 2 + n % 8)) (mid (8 * 3 + n % 8))
    (mid (8 * 4 + n % 8)) (mid (8 * 5 + n % 8))
    (mid (8 * 6 + n % 8)) (mid (8 * 7 + n % 8)) (n / 8))

/-- `fdct8x8iq_base` from imutils.cpp: row pass, column pass, then the
in-place quantization `dst[i] /= quant[i]` (C truncating division, int16
store). -/
def fdct8x8iq (src quant : ℕ → ℤ) : ℕ → ℤ := fun n =>
  wrap16 (cdiv (fdct8x8i_cols (fdct8x8i_rows src) n) (quant n))

/-- One 1-D pass of `idct8x8i_base` / `idct8x8id_base`: inputs are read in
the order c0, d4, c2, d6, c1, d5, c3, d7; output slot `k` receives
a0+a4, a1+a5, a2+a6, a3+a7, a3-a7, a2-a6, a1-a5, a0-a4 for k = 0..7. -/
def idctPass (c0 d4 c2 d6 c1 d5 c3 d7 : ℤ) : ℕ → ℤ := fun k =>
  let c4 := d4
  let c5 := d5 + d6
  let c7 := d5 - d6
  let c6 := d7
  let b4 := c4 + c5
  let b5 := c4 - c5
  let b6 := c6 + c7
  let b7 := c6 - c7
  let b0 := c0 + c1
  let b1 := c0 - c1
  let b2 := c2 + asr c2 2 + asr c3 1
  let b3 := asr c2 1 - c3 - asr c3 2
  let a4 := asr b7 2 + b4 + asr b4 2 - asr b4 4
  let a7 := asr b4 2 - b7 - asr b7 2 + asr b7 4
  let a5 := b5 - b6 + asr b6 2 + asr b6 4
  let a6 := b6 + b5 - asr b5 2 - asr b5 4
  let a0 := b0 + b2
  let a3 := b0 - b2
  let a1 := b1 + b3
  let a2 := b1 - b3
  match k with
  | 0 => a0 + a4
  | 1 => a1 + a5
  | 2 => a2 + a6
  | 3 => a3 + a7
  | 4 => a3 - a7
  | 5 => a2 - a6
  | 6 => a1 - a5
  | 7 => a0 - a4
  | _ => 0

/-- Column pass of `idct8x8id_base`: each loaded coefficient of column
`n % 8` is multiplied by the quantization entry; the results go to the int32
workspace (no int16 wrap). -/
def idct8x8id_wsp (src quant : ℕ → ℤ) : ℕ → ℤ := fun n =>
  idctPass
    (src (8 * 0 + n % 8) * quant (8 * 0 + n % 8))
    (src (8 * 1 + n % 8) * quant (8 * 1 + n % 8))
    (src (8 * 2 + n % 8) * quant (8 * 2 + n % 8))
    (src (8 * 3 + n % 8) * quant (8 * 3 + n % 8))
    (src (8 * 4 + n % 8) * quant (8 * 4 + n % 8))
    (src (8 * 5 + n % 8) * quant (8 * 5 + n % 8))
    (src (8 * 6 + n % 8) * quant (8 * 6 + n % 8))
    (src (8 * 7 + n % 8) * quant (8 * 7 + n % 8)) (n / 8)

/-- `idct8x8id_base` from imutils.cpp: dequantizing column pass into the
workspace, then the row pass whose sums are descaled by 64 (arithmetic shift
right by 6) and stored as int16. -/
def idct8x8id (src quant : ℕ → ℤ) : ℕ → ℤ := fun n =>
  wrap16 (asr (idctPass
    (idct8x8id_wsp src quant (8 * (n / 8) + 0))
    (idct8x8id_wsp src quant (8 * (n / 8) + 1))
    (idct8x8id_wsp src quant (8 * (n / 8) + 2))
    (idct8x8id_wsp src quant (8 * (n / 8) + 3))
    (idct8x8id_wsp src quant (8 * (n / 8) + 4))
    (idct8x8id_wsp src quant (8 * (n / 8) + 5))
    (idct8x8id_wsp src quant (8 * (n / 8) + 6))
    (idct8x8id_wsp src quant (8 * (n / 8) + 7)) (n % 8)) 6)

/-- The all-ones quantization table (`Qbase = 1`). -/
def qtable_ones : ℕ → ℤ := fun _ => 1

/-- The 8x8 test block that is 7 at cell (0, 1) and 0 elsewhere. -/
def dct_test_block : ℕ → ℤ := fun k => if k = 1 then 7 else 0

/-- Counterexample for C7: the claim states that with an all-ones
quantization table, idct8x8id (with its final shift right by 6) composed
with fdct8x8iq reproduces every 8x8 block of 8-bit-range int16 samples to
within plus or minus 1 on interior coefficients (block rows and columns 1..6).
The block that is 7 at cell (0, 1) and 0 elsewhere comes back as -2 at the
interior cell (2, 1) (index 17), an error of 2: the integer inverse is only
an approximate inverse of the forward transform and its error grows with the
input magnitude. -/
theorem integer_dct_descale_counterexample :
    ¬ (∀ src : ℕ → ℤ, (∀ k < 64, 0 ≤ src k ∧ src k ≤ 255) →
        ∀ i < 64, 1 ≤ i / 8 → i / 8 ≤ 6 → 1 ≤ i % 8 → i % 8 ≤ 6 →
          |idct8x8id (fdct8x8iq src qtable_ones) qtable_ones i - src i| ≤ 1) := by
  intro h
  have hbytes : ∀ k < 64, 0 ≤ dct_test_block k ∧ dct_test_block k ≤ 255 := by
    intro k _
    unfold dct_test_block
    split_ifs <;> norm_num
  have h17 := h dct_test_block hbytes 17 (by norm_num) (by norm_num)
    (by norm_num) (by norm_num) (by norm_num)
  have heval : idct8x8id (fdct8x8iq dct_test_block qtable_ones) qtable_ones 17 = -2 := by
    decide
  rw [heval, show dct_test_block 17 = 0 from rfl] at h17
  norm_num at h17

theorem fdctPass_const (v : ℤ) (k : ℕ) :
    fdctPass v v v v v v v v k = if k = 0 then 8 * v else 0 := by
  have hz1 : asr 0 1 = 0 := by decide
  have hz2 : asr 0 2 = 0 := by decide
  have hz4 : asr 0 4 = 0 := by decide
  rcases k with _ | _ | _ | _ | _ | _ | _ | _ | k <;>
    simp [fdctPass, sub_self, hz1, hz2, hz4] <;> ring

theorem idctPass_dc (x : ℤ) (k : ℕ) (hk : k < 8) :
    idctPass x 0 0 0 0 0 0 0 k = x := by
  have hz1 : asr 0 1 = 0 := by decide
  have hz2 : asr 0 2 = 0 := by decide
  have hz4 : asr 0 4 = 0 := by decide
  interval_cases k <;> simp [idctPass, sub_self, hz1, hz2, hz4]

theorem fdct_rows_const (v : ℤ) (h1 : -255 ≤ v) (h2 : v ≤ 255) :
    ∀ n, fdct8x8i_rows (fun _ => v) n = if n % 8 = 0 then 8 * v else 0 := by
  intro n
  unfold fdct8x8i_rows
  dsimp only
  rw [fdctPass_const]
  split_ifs
  · exact wrap16_id (by omega) (by omega)
  · exact wrap16_id (by norm_num) (by norm_num)

theorem fdct_cols_const (v : ℤ) (h1 : -255 ≤ v) (h2 : v ≤ 255) :
    ∀ n, fdct8x8i_cols (fun m => if m % 8 = 0 then 8 * v else 0) n =
      if n = 0 then 64 * v else 0 := by
  intro n
  unfold fdct8x8i_cols
  have hmods : ∀ a : ℕ, (8 * a + n % 8) % 8 = n % 8 := fun a => by omega
  simp only [hmods]
  by_cases h : n % 8 = 0
  · simp only [if_pos h]
    rw [fdctPass_const (8 * v)]
    by_cases hq : n / 8 = 0
    · rw [if_pos hq, if_pos (show n = 0 by omega)]
      rw [wrap16_id (by omega) (by omega)]
      ring
    · rw [if_neg hq, if_neg (show ¬ n = 0 by omega)]
      exact wrap16_id (by norm_num) (by norm_num)
  · simp only [if_neg h]
    rw [fdctPass_const 0]
    have hzero : (if n / 8 = 0 then 8 * (0 : ℤ) else 0) = 0 := by
      split_ifs <;> ring
    rw [hzero, if_neg (show ¬ n = 0 by omega)]
    exact wrap16_id (by norm_num) (by norm_num)

theorem fdct8x8iq_const (v : ℤ) (h1 : -255 ≤ v) (h2 : v ≤ 255) :
    ∀ n, fdct8x8iq (fun _ => v) qtable_ones n = if n = 0 then 64 * v else 0 := by
  intro n
  unfold fdct8x8iq
  rw [funext (fdct_rows_const v h1 h2), fdct_cols_const v h1 h2 n]
  show wrap16 (cdiv _ 1) = _
  rw [show ∀ a : ℤ, cdiv a 1 = a from fun a => Int.tdiv_one a]
  split_ifs
  · exact wrap16_id (by omega) (by omega)
  · exact wrap16_id (by norm_num) (by norm_num)

theorem idct_wsp_dc (v : ℤ) (n : ℕ) (hn : n < 64) :
    idct8x8id_wsp (fun m => if m = 0 then 64 * v else 0) qtable_ones n =
      if n % 8 = 0 then 64 * v else 0 := by
  unfold idct8x8id_wsp qtable_ones
  simp only [mul_one]
  rw [if_neg (show ¬ 8 * 1 + n % 8 = 0 by omega),
    if_neg (show ¬ 8 * 2 + n % 8 = 0 by omega),
    if_neg (show ¬ 8 * 3 + n % 8 = 0 by omega),
    if_neg (show ¬ 8 * 4 + n % 8 = 0 by omega),
    if_neg (show ¬ 8 * 5 + n % 8 = 0 by omega),
    if_neg (show ¬ 8 * 6 + n % 8 = 0 by omega),
    if_neg (show ¬ 8 * 7 + n % 8 = 0 by omega)]
  by_cases h : n % 8 = 0
  · rw [if_pos (show 8 * 0 + n % 8 = 0 by omega), if_pos h]
    exact idctPass_dc (64 * v) (n / 8) (by omega)
  · rw [if_neg (show ¬ 8 * 0 + n % 8 = 0 by omega), if_neg h]
    exact idctPass_dc 0 (n / 8) (by omega)

/-- C7 amended -- with the all-ones quantization table, the integer
forward-then-inverse pipeline (fdct8x8iq followed by idct8x8id with its
final shift right by 6) reproduces every CONSTANT 8x8 block with value in
[-255, 255] exactly; on non-constant blocks the reconstruction error can
exceed 1 even at interior coefficients (see the counterexample), because the
integer inverse only approximately inverts the forward butterflies. -/
theorem integer_dct_constant_roundtrip (v : ℤ) (h1 : -255 ≤ v) (h2 : v ≤ 255) :
    ∀ n < 64, idct8x8id (fdct8x8iq (fun _ => v) qtable_ones) qtable_ones n = v := by
  intro n hn
  unfold idct8x8id
  rw [funext (fdct8x8iq_const v h1 h2)]
  rw [idct_wsp_dc v (8 * (n / 8) + 0) (by omega),
    idct_wsp_dc v (8 * (n / 8) + 1) (by omega),
    idct_wsp_dc v (8 * (n / 8) + 2) (by omega),
    idct_wsp_dc v (8 * (n / 8) + 3) (by omega),
    idct_wsp_dc v (8 * (n / 8) + 4) (by omega),
    idct_wsp_dc v (8 * (n / 8) + 5) (by omega),
    idct_wsp_dc v (8 * (n / 8) + 6) (by omega),
    idct_wsp_dc v (8 * (n / 8) + 7) (by omega)]
  rw [if_pos (show (8 * (n / 8) + 0) % 8 = 0 by omega),
    if_neg (show ¬ (8 * (n / 8) + 1) % 8 = 0 by omega),
    if_neg (show ¬ (8 * (n / 8) + 2) % 8 = 0 by omega),
    if_neg (show ¬ (8 * (n / 8) + 3) % 8 = 0 by omega),
    if_neg (show ¬ (8 * (n / 8) + 4) % 8 = 0 by omega),
    if_neg (show ¬ (8 * (n / 8) + 5) % 8 = 0 by omega),
    if_neg (show ¬ (8 * (n / 8) + 6) % 8 = 0 by omega),
    if_neg (show ¬ (8 * (n / 8) + 7) % 8 = 0 by omega)]
  rw [idctPass_dc (64 * v) (n % 8) (by omega)]
  have hdescale : asr (64 * v) 6 = v := by
    rw [asr_eval]
    norm_num
  rw [hdescale]
  exact wrap16_id (by omega) (by omega)

/-- Witness for C7's amended theorem: the constant block 100 is reproduced
exactly at cell 0. -/
theorem integer_dct_constant_roundtrip_witness :
    idct8x8id (fdct8x8iq (fun _ => 100) qtable_ones) qtable_ones 0 = 100 :=
  integer_dct_constant_roundtrip 100 (by norm_num) (by norm_num) 0 (by norm_num)

/-! ## Encode orchestrator (encode16x16i) -/

/-- The output of `encode16x16i`: four quantized luma DCT blocks packed
contiguously in Y, one block each for Co and Cg, and the raw alpha plane. -/
structure EncodedBlock where
  Y : ℕ → ℤ
  Co : ℕ → ℤ
  Cg : ℕ → ℤ
  A : ℕ → ℤ

/-- `encode16x16i` from imutils.cpp: color conversion, the four luma
subblocks (0,0), (1,0), (0,1), (1,1) quantize-transformed into
Y[0], Y[64], Y[128], Y[192], and the two subsampled chroma planes
quantize-transformed into Co and Cg. -/
def encode16x16i (Qluma Qchroma rgba : ℕ → ℤ) : EncodedBlock :=
  let YCoCg := rgba_to_ycocga rgba
  let samp00 := subblock YCoCg 0 0 0
  let samp10 := subblock YCoCg 1 0 0
  let samp01 := subblock YCoCg 0 1 0
  let samp11 := subblock YCoCg 1 1 0
  let sampCo := subsample YCoCg 1
  let sampCg := subsample YCoCg 2
  { Y := fun n =>
      if n < 64 then fdct8x8iq samp00 Qluma n
      else if n < 128 then fdct8x8iq samp10 Qluma (n - 64)
      else if n < 192 then fdct8x8iq samp01 Qluma (n - 128)
      else fdct8x8iq samp11 Qluma (n - 192),
    Co := fdct8x8iq sampCo Qchroma,
    Cg := fdct8x8iq sampCg Qchroma,
    A := rgba_to_ycocga_alpha rgba }

/-- C8 -- For every 16x16 RGBA input and quantization tables, encode16x16i
places the quantized forward DCT of luma quadrant (qx, qy) at output offset
Y[k*64], k = qy*2 + qx: the quadrants are processed left-to-right,
top-to-bottom in the order (0,0), (1,0), (0,1), (1,1). -/
theorem encode16_luma_placement (Qluma Qchroma rgba : ℕ → ℤ) (qx qy j : ℕ)
    (hqx : qx < 2) (hqy : qy < 2) (hj : j < 64) :
    (encode16x16i Qluma Qchroma rgba).Y ((qy * 2 + qx) * 64 + j) =
      fdct8x8iq (subblock (rgba_to_ycocga rgba) qx qy 0) Qluma j := by
  have harg : ∀ (f : ℕ → ℤ) (a b : ℕ), a = b →
      fdct8x8iq f Qluma a = fdct8x8iq f Qluma b := fun f a b h => by rw [h]
  unfold encode16x16i
  dsimp only
  interval_cases qx <;> interval_cases qy
  · rw [if_pos (show (0 * 2 + 0) * 64 + j < 64 by omega)]
    norm_num
  · rw [if_neg (show ¬ (1 * 2 + 0) * 64 + j < 64 by omega),
      if_neg (show ¬ (1 * 2 + 0) * 64 + j < 128 by omega),
      if_pos (show (1 * 2 + 0) * 64 + j < 192 by omega)]
    exact harg _ _ _ (by omega)
  · rw [if_neg (show ¬ (0 * 2 + 1) * 64 + j < 64 by omega),
      if_pos (show (0 * 2 + 1) * 64 + j < 128 by omega)]
    exact harg _ _ _ (by omega)
  · rw [if_neg (show ¬ (1 * 2 + 1) * 64 + j < 64 by omega),
      if_neg (show ¬ (1 * 2 + 1) * 64 + j < 128 by omega),
      if_neg (show ¬ (1 * 2 + 1) * 64 + j < 192 by omega)]
    exact harg _ _ _ (by omega)

/-- Witness for C8: on the all-zero input with all-ones tables, the entry at
offset 64 (quadrant (1,0), k = 1) is the transform of subblock (1,0). -/
theorem encode16_luma_placement_witness :
    (encode16x16i qtable_ones qtable_ones (fun _ => 0)).Y ((0 * 2 + 1) * 64 + 0) =
      fdct8x8iq (subblock (rgba_to_ycocga (fun _ => 0)) 1 0 0) qtable_ones 0 :=
  encode16_luma_placement qtable_ones qtable_ones (fun _ => 0) 1 0 0
    (by norm_num) (by norm_num) (by norm_num)

/-! ## Image tiler (tile_count / copy_tile)

size_t arithmetic is modelled as natural numbers with explicit wrap-around
modulo 2^64 where the source can underflow (`usub` models C unsigned
subtraction).  `tile_count` computes its two ceilings in single-precision
float in the source; it is modelled with the exact ceiling
`(a + b - 1) / b`, which agrees with the source wherever the float rounding
of the quotient does not cross an integer (it does not for any configuration
appearing in the theorems below; a zero divisor, for which the source
divides by zero in float, is mapped to 0 and is never relied upon).
`copy_tile` writes each destination cell at most once per row phase, so the
pixel buffer it produces is embedded in gather form; cells the source never
writes keep the old tile contents. -/

/-- C `size_t` subtraction `a - b` with wrap-around modulo 2^64. -/
def usub (a b : ℕ) : ℕ := (a + (2 ^ 64 - b % 2 ^ 64)) % 2 ^ 64

/-- `image_tiler_config_t` from imutils.hpp; `BorderMode` 0 is
BORDER_CLAMP_TO_EDGE and 1 is BORDER_CONSTANT_COLOR; `Pixels` is the source
image in row-major packed RGBA8 (one value per pixel). -/
structure ImageTilerConfig where
  TileWidth : ℕ
  TileHeight : ℕ
  ImageWidth : ℕ
  ImageHeight : ℕ
  BorderSize : ℕ
  BorderMode : ℤ
  BorderColor : ℤ
  Pixels : ℕ → ℤ

/-- `image_tile_t` from imutils.hpp. -/
structure ImageTile where
  SourceX : ℕ
  SourceY : ℕ
  SourceWidth : ℕ
  SourceHeight : ℕ
  TileX : ℕ
  TileY : ℕ
  TileIndex : ℕ
  TileWidth : ℕ
  TileHeight : ℕ
  BytesPerRow : ℕ
  BytesPerTile : ℕ
  Pixels : ℕ → ℤ

/-- `tile_count` from imutils.cpp: the number of tiles across, down, and in
total, derived from the inner tile size (tile size minus both borders,
size_t subtraction). -/
def tile_count (config : ImageTilerConfig) : ℕ × ℕ × ℕ :=
  let borders := 2 * config.BorderSize
  let tile_w := usub config.TileWidth borders
  let tile_h := usub config.TileHeight borders
  let tiles_x := if tile_w = 0 then 0 else (config.ImageWidth + tile_w - 1) / tile_w
  let tiles_y := if tile_h = 0 then 0 else (config.ImageHeight + tile_h - 1) / tile_h
  (tiles_x, tiles_y, tiles_x * tiles_y)

/-- `sample_border` from imutils.cpp. -/
def sample_border (config : ImageTilerConfig) (edge : ℤ) : ℤ :=
  if config.BorderMode = 0 then edge
  else if config.BorderMode = 1 then config.BorderColor
  else 0

/-- `read_row` from imutils.cpp, in gather form over the position `p` inside
the produced row: left border, `src_num` source pixels, `pad_right` copies of
the rightmost source pixel, right border. -/
def read_row (src_row : ℕ → ℤ) (src_num pad_right : ℕ)
    (config : ImageTilerConfig) : ℕ → ℤ := fun p =>
  if p < config.BorderSize then sample_border config (src_row 0)
  else if p < config.BorderSize + src_num then src_row (p - config.BorderSize)
  else if p < config.BorderSize + src_num + pad_right then src_row (src_num - 1)
  else sample_border config (src_row (src_num - 1))

/-- `read_row_border` from imutils.cpp: CLAMP_TO_EDGE delegates to read_row,
CONSTANT_COLOR fills the row with the border color; any other mode writes
nothing, leaving the previous contents `old`. -/
def read_row_border (old : ℕ → ℤ) (src_row : ℕ → ℤ) (src_num pad_right : ℕ)
    (config : ImageTilerConfig) : ℕ → ℤ :=
  if config.BorderMode = 0 then read_row src_row src_num pad_right config
  else if config.BorderMode = 1 then fun _ => config.BorderColor
  else old

/-- The source-image row `r` of the tile rectangle, as a function of the
column offset (the `src_row` pointer of copy_tile after advancing `r`
rows). -/
def copy_tile_src_row (config : ImageTilerConfig) (src_base r : ℕ) : ℕ → ℤ :=
  fun off => config.Pixels (src_base + r * config.ImageWidth + off)

/-- Rows written by the first two phases of copy_tile: `t` in the top border
produces a border row from source row 0; `t` in the interior produces
read_row of source row `t - border`. -/
def copy_tile_rowA (old : ℕ → ℤ) (config : ImageTilerConfig)
    (source_w pad_right src_base t : ℕ) : ℕ → ℤ :=
  if t < config.BorderSize then
    read_row_border (fun p => old (t * config.TileWidth + p))
      (copy_tile_src_row config src_base 0) source_w pad_right config
  else
    read_row (copy_tile_src_row config src_base (t - config.BorderSize))
      source_w pad_right config

/-- The pixel buffer produced by copy_tile, in gather form over the output
offset: top border rows, interior rows, `pad_bottom` copies of the last
produced row, bottom border rows (their source pointer stands one row past
the copied source rows, as in the source), everything else untouched. -/
def copy_tile_pixels (old : ℕ → ℤ) (config : ImageTilerConfig)
    (source_w source_h pad_right pad_bottom src_base : ℕ) : ℕ → ℤ := fun ofs =>
  let border := config.BorderSize
  let dst_num := config.TileWidth
  let t := ofs / dst_num
  let p := ofs % dst_num
  if t < border + source_h then
    copy_tile_rowA old config source_w pad_right src_base t p
  else if t < border + source_h + pad_bottom then
    copy_tile_rowA old config source_w pad_right src_base (border + source_h - 1) p
  else if t < border + source_h + pad_bottom + border then
    read_row_border (fun q => old (t * dst_num + q))
      (copy_tile_src_row config src_base source_h) source_w pad_right config p
  else old ofs

/-- `copy_tile` from imutils.cpp: false with the tile untouched when the
index is out of range; otherwise the tile rectangle is derived from the
index, clamped against the image with right/bottom padding recorded
(size_t arithmetic, wrapping), the pixel rows are produced, and the
metadata fields are filled in. -/
def copy_tile (tile : ImageTile) (config : ImageTilerConfig) (index : ℕ) :
    Bool × ImageTile :=
  let tc := tile_count config
  let tiles_x := tc.1
  let tiles_n := tc.2.2
  if tiles_n ≤ index then (false, tile)
  else
    let tile_y := index / tiles_x
    let tile_x := index % tiles_x
    let source_w0 := usub config.TileWidth (2 * config.BorderSize)
    let source_h0 := usub config.TileHeight (2 * config.BorderSize)
    let source_x := (tile_x * source_w0) % 2 ^ 64
    let source_y := (tile_y * source_h0) % 2 ^ 64
    let src_base := source_y * config.ImageWidth + source_x
    let sum_w := (source_x + source_w0) % 2 ^ 64
    let sum_h := (source_y + source_h0) % 2 ^ 64
    let source_w := if config.ImageWidth < sum_w
      then config.ImageWidth - source_x else source_w0
    let pad_right := if config.ImageWidth < sum_w
      then usub source_w0 (config.ImageWidth - source_x) else 0
    let source_h := if config.ImageHeight < sum_h
      then config.ImageHeight - source_y else source_h0
    let pad_bottom := if config.ImageHeight < sum_h
      then usub source_h0 (config.ImageHeight - source_y) else 0
    (true,
      { SourceX := source_x
        SourceY := source_y
        SourceWidth := source_w
        SourceHeight := source_h
        TileX := tile_x
        TileY := tile_y
        TileIndex := index
        TileWidth := config.TileWidth
        TileHeight := config.TileHeight
        BytesPerRow := config.TileWidth * 4
        BytesPerTile := config.TileWidth * config.TileHeight * 4
        Pixels := copy_tile_pixels tile.Pixels config source_w source_h
          pad_right pad_bottom src_base })

/-- A tiler configuration whose tile dimensions (4) do not exceed twice the
border size (2*4 = 8): the inner tile size underflows in size_t.  The source
image is 16x16 with every pixel value 5. -/
def bad_tiler_config : ImageTilerConfig :=
  { TileWidth := 4
    TileHeight := 4
    ImageWidth := 16
    ImageHeight := 16
    BorderSize := 4
    BorderMode := 0
    BorderColor := 0
    Pixels := fun _ => 5 }

/-- A freshly zeroed tile record with a zeroed pixel buffer. -/
def zero_tile : ImageTile :=
  { SourceX := 0, SourceY := 0, SourceWidth := 0, SourceHeight := 0
    TileX := 0, TileY := 0, TileIndex := 0, TileWidth := 0, TileHeight := 0
    BytesPerRow := 0, BytesPerTile := 0, Pixels := fun _ => 0 }

/-- Counterexample for C9: the claim states that copy_tile reports failure
with no state mutation when the configured tile dimensions are at most twice
the border size.  copy_tile performs no such validation: with tile size 4 and
border 4 the inner size underflows size_t, tile_count yields 1, and the call
with index 0 proceeds -- it returns true, overwrites the metadata (TileWidth
becomes 4) and writes border pixels into the buffer (offset 0 becomes the
clamped edge pixel 5). -/
theorem copy_tile_counterexample :
    bad_tiler_config.TileWidth ≤ 2 * bad_tiler_config.BorderSize ∧
    (copy_tile zero_tile bad_tiler_config 0).1 = true ∧
    (copy_tile zero_tile bad_tiler_config 0).2.TileWidth = 4 ∧
    zero_tile.TileWidth = 0 ∧
    (copy_tile zero_tile bad_tiler_config 0).2.Pixels 0 = 5 ∧
    zero_tile.Pixels 0 = 0 := by
  refine ⟨by decide, ?_, ?_, rfl, ?_, rfl⟩
  · decide
  · decide
  · decide

/-- C9 amended -- copy_tile fails (returns false) leaving every field of the
tile, including its pixel buffer, untouched when the index is at least the
tile count; this is its only failure path, and it performs no validation of
the tile dimensions against the border size (see the counterexample, where a
degenerate configuration is processed and mutates the tile). -/
theorem copy_tile_invalid_index (tile : ImageTile) (config : ImageTilerConfig)
    (index : ℕ) (h : (tile_count config).2.2 ≤ index) :
    copy_tile tile config index = (false, tile) := by
  unfold copy_tile
  rw [if_pos h]

/-- Witness for C9's amended theorem: a 16x16 borderless tiling of a 16x16
image has exactly one tile, so index 1 fails and the tile is unchanged. -/
theorem copy_tile_invalid_index_witness :
    copy_tile zero_tile
      { TileWidth := 16, TileHeight := 16, ImageWidth := 16, ImageHeight := 16
        BorderSize := 0, BorderMode := 0, BorderColor := 0, Pixels := fun _ => 0 }
      1 =
      (false, zero_tile) :=
  copy_tile_invalid_index zero_tile _ 1 (by decide)
